import Mathlib

/-!
# Volume Profile Engine — shallow embedding

A shallow embedding of the volume-profile computation of `v4.py`
(lines 49–82): price-bin construction (`np.linspace`), close-price
binning (`pd.cut` with its default right-closed intervals and its
strictly-increasing-bins check), volume aggregation
(`groupby('bin_mid', observed=True)` which keeps only observed
categories and drops NaN keys), POC selection (`Series.idxmax`,
first occurrence of the maximum), and the Value-Area expansion loop.

Prices and volumes are modelled as exact rationals (`ℚ`).
-/

namespace VolumeProfile

/-- One OHLCV bar; only the fields the computation reads
(`Low`, `High`, `Close`, `Volume`). -/
structure Bar where
  low : ℚ
  high : ℚ
  close : ℚ
  volume : ℚ
  deriving Repr, DecidableEq

/-- `df['Low'].min()` — the minimum of the lows (0 on the empty frame,
which the script never reaches thanks to the `df.empty` guard). -/
def priceMin (bars : List Bar) : ℚ :=
  match bars with
  | [] => 0
  | b :: bs => bs.foldl (fun acc x => min acc x.low) b.low

/-- `df['High'].max()` — the maximum of the highs. -/
def priceMax (bars : List Bar) : ℚ :=
  match bars with
  | [] => 0
  | b :: bs => bs.foldl (fun acc x => max acc x.high) b.high

/-- `np.linspace a b n`: `n` evenly spaced samples from `a` to `b`
inclusive. For `n = 1` numpy returns `[a]`, which the formula also
yields in `ℚ` (the `i = 0` term has numerator `0`). -/
def linspace (a b : ℚ) (n : ℕ) : List ℚ :=
  (List.range n).map (fun i : ℕ => a + (b - a) * (i : ℚ) / ((n : ℚ) - 1))

/-- `pd.cut`'s precondition: "bins must increase monotonically". -/
def strictIncr : List ℚ → Bool
  | [] => true
  | [_] => true
  | a :: b :: rest => decide (a < b) && strictIncr (b :: rest)

/-- The bucket `pd.cut` (with its defaults `right=True`,
`include_lowest=False`) assigns a value to: index `i` such that
`bins[i] < x ≤ bins[i+1]`, `none` (NaN) when no interval contains `x`. -/
def findBin (bins : List ℚ) (x : ℚ) : Option ℕ :=
  match bins with
  | a :: b :: rest =>
    if a < x ∧ x ≤ b then some 0
    else (findBin (b :: rest) x).map (· + 1)
  | _ => none

/-- The label `bins[:-1] + np.diff(bins)/2` attached to bucket `i`:
the bucket's midpoint. -/
def binMid (bins : List ℚ) (i : ℕ) : ℚ :=
  (bins.getD i 0 + bins.getD (i + 1) 0) / 2

/-- Lines 49–54: the `df.empty` guard (the warning branch computes no
profile) followed by `np.linspace(price_min, price_max, bins_count)`.
`np.linspace` itself never fails: a degenerate range yields a constant,
non-increasing boundary list. -/
def buildPriceBins (bars : List Bar) (binsCount : ℕ) : Except String (List ℚ) :=
  if bars.isEmpty then .error "no data"
  else .ok (linspace (priceMin bars) (priceMax bars) binsCount)

/-- `pd.cut(xs, bins=bins, labels=...)`: raises unless the bins increase
strictly; otherwise assigns each value its bucket (or NaN). -/
def cut (bins : List ℚ) (xs : List ℚ) : Except String (List (Option ℕ)) :=
  if strictIncr bins then .ok (xs.map (findBin bins))
  else .error "bins must increase monotonically"

/-- One row of `vp`: a bucket midpoint and its aggregated volume. -/
structure VolumeBin where
  bin_mid : ℚ
  volume : ℚ
  deriving Repr, DecidableEq

/-- The bars `pd.cut` assigned to bucket `i`. -/
def assignedBars (bars : List Bar) (bins : List ℚ) (i : ℕ) : List Bar :=
  bars.filter (fun b => findBin bins b.close == some i)

/-- Lines 57–59: `df.groupby('bin_mid', observed=True)['Volume'].sum()`.
With `observed=True` only categories that actually occur appear, so a
bucket containing no bar's close is omitted (a bucket containing only
zero-volume bars is observed and kept, with aggregated volume 0); NaN
keys (closes `pd.cut` assigned nowhere) are dropped. Groups come out in
category order, i.e. ascending bucket index / midpoint. -/
def aggregate (bars : List Bar) (bins : List ℚ) : List VolumeBin :=
  (List.range (bins.length - 1)).filterMap (fun i =>
    if (assignedBars bars bins i).isEmpty then none
    else some ⟨binMid bins i, ((assignedBars bars bins i).map Bar.volume).sum⟩)

/-- `Series.idxmax` on the positional index `0,…,n-1`: the first index
holding the maximum (pandas keeps the earliest occurrence on ties, and
raises on an empty series — modelled as `none`). -/
def idxmax : List ℚ → Option ℕ
  | [] => none
  | x :: xs =>
    match idxmax xs with
    | none => some 0
    | some j => if x < xs.getD j 0 then some (j + 1) else some 0

/-- `vp.loc[i, 'Volume']` for an integer label `i` (the positional
index after `reset_index`); out-of-range access is never performed by
the loop, 0 is a dummy. -/
def volAt (vols : List ℚ) (i : ℤ) : ℚ :=
  if 0 ≤ i then vols.getD i.toNat 0 else 0

/-- `v_up` of one loop iteration: `vp.loc[up_i+1,'Volume'] if up_i + 1 < len(vp) else 0`. -/
def vUpOf (vols : List ℚ) (up : ℤ) : ℚ :=
  if up + 1 < (vols.length : ℤ) then volAt vols (up + 1) else 0

/-- `v_down` of one loop iteration: `vp.loc[down_i-1,'Volume'] if down_i - 1 >= 0 else 0`. -/
def vDownOf (vols : List ℚ) (down : ℤ) : ℚ :=
  if 0 ≤ down - 1 then volAt vols (down - 1) else 0

/-- Lines 71–80, the Value-Area expansion loop, with explicit fuel.
State is `(current_vol, up_i, down_i)`. -/
def vaLoop (vols : List ℚ) (target : ℚ) :
    ℕ → ℚ → ℤ → ℤ → ℚ × ℤ × ℤ
  | 0, cur, up, down => (cur, up, down)
  | fuel + 1, cur, up, down =>
    if cur < target then
      let vUp := vUpOf vols up
      let vDown := vDownOf vols down
      if vUp = 0 ∧ vDown = 0 then (cur, up, down)
      else if vDown ≤ vUp then vaLoop vols target fuel (cur + vUp) (up + 1) down
      else vaLoop vols target fuel (cur + vDown) up (down - 1)
    else (cur, up, down)

/-- Lines 66–80 as a function of the volume column and the POC index:
target volume, initial accumulator `vp.loc[poc_idx,'Volume']`, and the
loop run to completion (`vols.length` steps of fuel suffice, proved
below). Returns `(current_vol, up_i, down_i)`. -/
def computeValueArea (vols : List ℚ) (pocIdx : ℕ) (vaFraction : ℚ) :
    ℚ × ℤ × ℤ :=
  let target := vols.sum * vaFraction
  vaLoop vols target vols.length (vols.getD pocIdx 0) pocIdx pocIdx

/-- The volume accumulated over the positions `down ≤ i ≤ up` of `vp`. -/
def intervalVol (vols : List ℚ) (down up : ℤ) : ℚ :=
  (((List.range vols.length).filter
      (fun i : ℕ => decide (down ≤ (i : ℤ)) && decide ((i : ℤ) ≤ up))).map
    (fun i : ℕ => vols.getD i 0)).sum

/-- The whole engine, lines 49–82: bins, `pd.cut` (whose monotonicity
check is where a degenerate price range actually raises), aggregation,
POC (`idxmax` raising on an empty frame), Value Area. Returns
`(poc_idx, poc_price, current_vol, up_i, down_i)`. -/
def computeProfile (bars : List Bar) (binsCount : ℕ) (vaFraction : ℚ) :
    Except String (ℕ × ℚ × ℚ × ℤ × ℤ) := do
  let bins ← buildPriceBins bars binsCount
  let _ ← cut bins (bars.map Bar.close)
  let vp := aggregate bars bins
  let vols := vp.map VolumeBin.volume
  match idxmax vols with
  | none => .error "attempt to get argmax of an empty sequence"
  | some pocIdx =>
    let pocPrice := (vp.getD pocIdx ⟨0, 0⟩).bin_mid
    let r := computeValueArea vols pocIdx vaFraction
    .ok (pocIdx, pocPrice, r)

/-! ### `linspace` and `strictIncr` -/

theorem linspace_length (a b : ℚ) (n : ℕ) : (linspace a b n).length = n := by
  rw [linspace, List.length_map, List.length_range]

theorem linspace_getD (a b : ℚ) {n i : ℕ} (h : i < n) :
    (linspace a b n).getD i 0 = a + (b - a) * i / ((n : ℚ) - 1) := by
  have hlen : i < (linspace a b n).length := by rw [linspace_length]; exact h
  rw [List.getD_eq_getElem _ _ hlen]
  simp only [linspace, List.getElem_map, List.getElem_range]

theorem strictIncr_adj {l : List ℚ} (h : strictIncr l = true) {i : ℕ}
    (hi : i + 1 < l.length) : l.getD i 0 < l.getD (i + 1) 0 := by
  induction l generalizing i with
  | nil => simp at hi
  | cons a l ih =>
    cases l with
    | nil => simp at hi
    | cons b rest =>
      simp only [strictIncr, Bool.and_eq_true, decide_eq_true_eq] at h
      cases i with
      | zero => simpa using h.1
      | succ j =>
        simp only [List.getD_cons_succ]
        exact ih h.2 (by simpa using hi)

theorem strictIncr_of_adj {l : List ℚ}
    (h : ∀ i, i + 1 < l.length → l.getD i 0 < l.getD (i + 1) 0) :
    strictIncr l = true := by
  induction l with
  | nil => rfl
  | cons a l ih =>
    cases l with
    | nil => rfl
    | cons b rest =>
      simp only [strictIncr, Bool.and_eq_true, decide_eq_true_eq]
      refine ⟨by simpa using h 0 (by simp), ih fun i hi => ?_⟩
      simpa using h (i + 1) (by simpa using hi)

theorem strictIncr_getD_lt {l : List ℚ} (h : strictIncr l = true) {i j : ℕ}
    (hij : i < j) (hj : j < l.length) : l.getD i 0 < l.getD j 0 := by
  induction j with
  | zero => omega
  | succ k ih =>
    rcases Nat.lt_or_ge i k with hik | hik
    · exact (ih hik (by omega)).trans (strictIncr_adj h hj)
    · have hik' : i = k := by omega
      subst hik'
      exact strictIncr_adj h hj

theorem strictIncr_getD_le {l : List ℚ} (h : strictIncr l = true) {i j : ℕ}
    (hij : i ≤ j) (hj : j < l.length) : l.getD i 0 ≤ l.getD j 0 := by
  rcases Nat.lt_or_ge i j with hlt | hge
  · exact le_of_lt (strictIncr_getD_lt h hlt hj)
  · have hij' : i = j := by omega
    subst hij'
    exact le_rfl

theorem linspace_strictIncr {a b : ℚ} (hab : a < b) {n : ℕ} (hn : 2 ≤ n) :
    strictIncr (linspace a b n) = true := by
  apply strictIncr_of_adj
  intro i hi
  rw [linspace_length] at hi
  rw [linspace_getD a b (by omega), linspace_getD a b hi]
  have hden : (0 : ℚ) < (n : ℚ) - 1 := by
    have h2 : (2 : ℚ) ≤ (n : ℚ) := by exact_mod_cast hn
    linarith
  have hba : (0 : ℚ) < b - a := by linarith
  have hcast : (i : ℚ) < ((i + 1 : ℕ) : ℚ) := by push_cast; linarith
  have hmul : (b - a) * (i : ℚ) < (b - a) * ((i + 1 : ℕ) : ℚ) :=
    mul_lt_mul_of_pos_left hcast hba
  have hdiv := (div_lt_div_iff_of_pos_right hden).mpr hmul
  linarith

theorem linspace_getD_zero (a b : ℚ) {n : ℕ} (hn : 0 < n) :
    (linspace a b n).getD 0 0 = a := by
  rw [linspace_getD a b hn]
  simp

theorem linspace_getD_last (a b : ℚ) {n : ℕ} (hn : 2 ≤ n) :
    (linspace a b n).getD (n - 1) 0 = b := by
  rw [linspace_getD a b (by omega)]
  have hc : ((n - 1 : ℕ) : ℚ) = (n : ℚ) - 1 := by
    rw [Nat.cast_sub (by omega)]
    simp
  have hden : (n : ℚ) - 1 ≠ 0 := by
    have h2 : (2 : ℚ) ≤ (n : ℚ) := by exact_mod_cast hn
    intro hz
    linarith
  rw [hc, mul_div_assoc, div_self hden]
  ring

/-! ### `findBin` -/

theorem findBin_sound {bins : List ℚ} {x : ℚ} {i : ℕ}
    (h : findBin bins x = some i) :
    i + 1 < bins.length ∧ bins.getD i 0 < x ∧ x ≤ bins.getD (i + 1) 0 := by
  induction bins generalizing i with
  | nil => simp [findBin] at h
  | cons a l ih =>
    cases l with
    | nil => simp [findBin] at h
    | cons b rest =>
      rw [findBin] at h
      by_cases hx : a < x ∧ x ≤ b
      · rw [if_pos hx] at h
        simp only [Option.some.injEq] at h
        subst h
        simpa using hx
      · rw [if_neg hx] at h
        cases hfb : findBin (b :: rest) x with
        | none => rw [hfb] at h; simp at h
        | some j =>
          rw [hfb] at h
          simp only [Option.map_some', Option.some.injEq] at h
          subst h
          obtain ⟨h1, h2, h3⟩ := ih hfb
          exact ⟨by simpa using h1, by simpa using h2, by simpa using h3⟩

theorem findBin_isSome {bins : List ℚ} {x : ℚ}
    (hlen : 2 ≤ bins.length)
    (hlo : bins.getD 0 0 < x) (hhi : x ≤ bins.getD (bins.length - 1) 0) :
    (findBin bins x).isSome := by
  induction bins with
  | nil => simp at hlen
  | cons a l ih =>
    cases l with
    | nil => simp at hlen
    | cons b rest =>
      rw [findBin]
      by_cases hx : a < x ∧ x ≤ b
      · rw [if_pos hx]; rfl
      · rw [if_neg hx]
        simp only [List.getD_cons_zero] at hlo
        have hbx : b < x := by
          rcases not_and_or.mp hx with h1 | h1
        -- a < x holds by hlo, so the failing conjunct is `x ≤ b`
          · exact absurd hlo h1
          · exact lt_of_not_le h1
        have hih : (findBin (b :: rest) x).isSome := by
          cases rest with
          | nil =>
            exfalso
            have hxb : x ≤ b := by simpa using hhi
            linarith
          | cons c rest' =>
            apply ih
            · simp
            · simpa using hbx
            · simpa using hhi
        obtain ⟨j, hj⟩ := Option.isSome_iff_exists.mp hih
        rw [hj]
        rfl

theorem findBin_none_of_le {bins : List ℚ} {x : ℚ}
    (hinc : strictIncr bins = true) (hle : x ≤ bins.getD 0 0) :
    findBin bins x = none := by
  induction bins with
  | nil => rfl
  | cons a l ih =>
    cases l with
    | nil => rfl
    | cons b rest =>
      simp only [strictIncr, Bool.and_eq_true, decide_eq_true_eq] at hinc
      simp only [List.getD_cons_zero] at hle
      rw [findBin]
      have hne : ¬(a < x ∧ x ≤ b) := fun ⟨h1, _⟩ => absurd (lt_of_le_of_lt hle h1) (lt_irrefl x)
      rw [if_neg hne,
        ih hinc.2 (by simp only [List.getD_cons_zero]; exact le_trans hle (le_of_lt hinc.1))]
      rfl

theorem findBin_last {bins : List ℚ} (hinc : strictIncr bins = true)
    (hlen : 2 ≤ bins.length) :
    findBin bins (bins.getD (bins.length - 1) 0) = some (bins.length - 2) := by
  have hlo : bins.getD 0 0 < bins.getD (bins.length - 1) 0 :=
    strictIncr_getD_lt hinc (by omega) (by omega)
  have hs := findBin_isSome hlen hlo le_rfl
  obtain ⟨i, hi⟩ := Option.isSome_iff_exists.mp hs
  obtain ⟨h1, _, h3⟩ := findBin_sound hi
  have heq : i + 1 = bins.length - 1 := by
    by_contra hne
    have hlt : i + 1 < bins.length - 1 := by omega
    have := strictIncr_getD_lt hinc hlt (by omega)
    linarith
  rw [hi]
  congr 1
  omega

/-! ### `priceMin` / `priceMax` bounds -/

theorem foldl_min_le_init (l : List Bar) (a : ℚ) :
    l.foldl (fun acc x => min acc x.low) a ≤ a := by
  induction l generalizing a with
  | nil => simp
  | cons b l ih => exact le_trans (ih (min a b.low)) (min_le_left _ _)

theorem foldl_min_le_mem {l : List Bar} {x : Bar} (hx : x ∈ l) (a : ℚ) :
    l.foldl (fun acc y => min acc y.low) a ≤ x.low := by
  induction l generalizing a with
  | nil => simp at hx
  | cons b l ih =>
    rcases List.mem_cons.mp hx with h | h
    · subst h
      exact le_trans (foldl_min_le_init l (min a x.low)) (min_le_right _ _)
    · exact ih h (min a b.low)

theorem init_le_foldl_max (l : List Bar) (a : ℚ) :
    a ≤ l.foldl (fun acc x => max acc x.high) a := by
  induction l generalizing a with
  | nil => simp
  | cons b l ih => exact le_trans (le_max_left _ _) (ih (max a b.high))

theorem mem_le_foldl_max {l : List Bar} {x : Bar} (hx : x ∈ l) (a : ℚ) :
    x.high ≤ l.foldl (fun acc y => max acc y.high) a := by
  induction l generalizing a with
  | nil => simp at hx
  | cons b l ih =>
    rcases List.mem_cons.mp hx with h | h
    · subst h
      exact le_trans (le_max_right _ _) (init_le_foldl_max l (max a x.high))
    · exact ih h (max a b.high)

theorem priceMin_le_low {bars : List Bar} {b : Bar} (hb : b ∈ bars) :
    priceMin bars ≤ b.low := by
  cases bars with
  | nil => simp at hb
  | cons c l =>
    rw [priceMin]
    rcases List.mem_cons.mp hb with h | h
    · subst h
      exact foldl_min_le_init l b.low
    · exact foldl_min_le_mem h c.low

theorem high_le_priceMax {bars : List Bar} {b : Bar} (hb : b ∈ bars) :
    b.high ≤ priceMax bars := by
  cases bars with
  | nil => simp at hb
  | cons c l =>
    rw [priceMax]
    rcases List.mem_cons.mp hb with h | h
    · subst h
      exact init_le_foldl_max l b.high
    · exact mem_le_foldl_max h c.high

/-! ### Sum helper lemmas -/

theorem sum_map_filter {α : Type} (l : List α) (p : α → Bool) (f : α → ℚ) :
    ((l.filter p).map f).sum = (l.map (fun x => if p x then f x else 0)).sum := by
  induction l with
  | nil => rfl
  | cons a l ih =>
    rw [List.filter_cons]
    by_cases h : p a
    · rw [if_pos h]
      simp only [List.map_cons, List.sum_cons, h, if_true, ih]
    · rw [if_neg h]
      simp only [List.map_cons, List.sum_cons, ih]
      rw [if_neg h]
      ring

theorem sum_range_ind_zero {n j : ℕ} (f : ℕ → ℚ) (hj : n ≤ j) :
    ((List.range n).map (fun i => if j = i then f i else 0)).sum = 0 := by
  induction n with
  | zero => rfl
  | succ m ih =>
    rw [List.range_succ, List.map_append, List.sum_append, ih (by omega)]
    simp only [List.map_cons, List.map_nil, List.sum_cons, List.sum_nil]
    rw [if_neg (by omega)]
    ring

theorem sum_range_ind {n j : ℕ} (f : ℕ → ℚ) (hj : j < n) :
    ((List.range n).map (fun i => if j = i then f i else 0)).sum = f j := by
  induction n with
  | zero => omega
  | succ m ih =>
    rw [List.range_succ, List.map_append, List.sum_append]
    simp only [List.map_cons, List.map_nil, List.sum_cons, List.sum_nil]
    rcases Nat.lt_or_ge j m with hlt | hge
    · rw [ih hlt, if_neg (by omega)]
      ring
    · have hjm : j = m := by omega
      subst hjm
      rw [sum_range_ind_zero f le_rfl, if_pos rfl]
      ring

theorem sum_filter_partition {α : Type} (l : List α) (p : α → Bool) (f : α → ℚ) :
    ((l.filter p).map f).sum + ((l.filter (fun x => !(p x))).map f).sum
      = (l.map f).sum := by
  induction l with
  | nil => simp
  | cons a l ih =>
    rw [List.filter_cons, List.filter_cons]
    by_cases h : p a
    · rw [if_pos h, if_neg (by simp [h])]
      simp only [List.map_cons, List.sum_cons]
      rw [← ih]
      ring
    · rw [if_neg h, if_pos (by simp [h])]
      simp only [List.map_cons, List.sum_cons]
      rw [← ih]
      ring

/-! ### Aggregation: volume conservation and ordering -/

theorem aggregate_map_volume_sum (bars : List Bar) (bins : List ℚ) :
    ((aggregate bars bins).map VolumeBin.volume).sum
      = ((List.range (bins.length - 1)).map
          (fun i => ((assignedBars bars bins i).map Bar.volume).sum)).sum := by
  rw [aggregate]
  generalize List.range (bins.length - 1) = l
  induction l with
  | nil => rfl
  | cons i l ih =>
    rw [List.filterMap_cons]
    by_cases h : (assignedBars bars bins i).isEmpty
    · rw [if_pos h, ih]
      have hempty : assignedBars bars bins i = [] := by
        simpa using h
      simp only [List.map_cons, List.sum_cons, hempty, List.map_nil, List.sum_nil]
      ring
    · rw [if_neg h]
      simp only [List.map_cons, List.sum_cons, ih]

theorem sum_buckets_eq_kept (bars : List Bar) (bins : List ℚ) :
    ((List.range (bins.length - 1)).map
        (fun i => ((assignedBars bars bins i).map Bar.volume).sum)).sum
      = ((bars.filter (fun b => (findBin bins b.close).isSome)).map Bar.volume).sum := by
  induction bars with
  | nil =>
    simp only [assignedBars, List.filter_nil, List.map_nil, List.sum_nil]
    apply List.sum_eq_zero
    intro x hx
    simp only [List.mem_map] at hx
    obtain ⟨i, _, hxi⟩ := hx
    exact hxi.symm
  | cons b bs ih =>
    have hsplit : ∀ i ∈ List.range (bins.length - 1),
        ((assignedBars (b :: bs) bins i).map Bar.volume).sum
          = (if findBin bins b.close = some i then b.volume else 0)
            + ((assignedBars bs bins i).map Bar.volume).sum := by
      intro i _
      rw [assignedBars, assignedBars, List.filter_cons]
      by_cases h : findBin bins b.close = some i
      · rw [if_pos (by simpa using h), if_pos h]
        simp only [List.map_cons, List.sum_cons]
      · rw [if_neg (by simpa using h), if_neg h]
        ring
    rw [List.map_congr_left hsplit, List.sum_map_add, ih, List.filter_cons]
    by_cases hfb : (findBin bins b.close).isSome
    · rw [if_pos (by simpa using hfb)]
      obtain ⟨j, hj⟩ := Option.isSome_iff_exists.mp hfb
      have hjlt : j < bins.length - 1 := by
        have := (findBin_sound hj).1
        omega
      have hind : ((List.range (bins.length - 1)).map
          (fun i => if findBin bins b.close = some i then b.volume else 0)).sum
            = b.volume := by
        have hcong : ∀ i ∈ List.range (bins.length - 1),
            (if findBin bins b.close = some i then b.volume else 0)
              = (if j = i then b.volume else 0) := by
          intro i _
          rw [hj]
          by_cases hij : j = i
          · rw [if_pos (by rw [hij]), if_pos hij]
          · rw [if_neg (fun hc => hij (Option.some.inj hc)), if_neg hij]
        rw [List.map_congr_left hcong]
        exact sum_range_ind (fun _ => b.volume) hjlt
      rw [hind]
      simp only [List.map_cons, List.sum_cons]
    · rw [if_neg (by simpa using hfb)]
      have hnone : findBin bins b.close = none := by
        simpa using hfb
      have hzero : ((List.range (bins.length - 1)).map
          (fun i => if findBin bins b.close = some i then b.volume else 0)).sum = 0 := by
        have hcong : ∀ i ∈ List.range (bins.length - 1),
            (if findBin bins b.close = some i then b.volume else 0) = 0 := by
          intro i _
          rw [hnone, if_neg (by simp)]
        rw [List.map_congr_left hcong]
        apply List.sum_eq_zero
        intro x hx
        simp only [List.mem_map] at hx
        obtain ⟨k, _, hxk⟩ := hx
        exact hxk.symm
      rw [hzero]
      ring

theorem aggregate_sum_kept (bars : List Bar) (bins : List ℚ) :
    ((aggregate bars bins).map VolumeBin.volume).sum
      = ((bars.filter (fun b => (findBin bins b.close).isSome)).map Bar.volume).sum :=
  (aggregate_map_volume_sum bars bins).trans (sum_buckets_eq_kept bars bins)

theorem findBin_isSome_iff {bars : List Bar} {n : ℕ} {b : Bar}
    (hb : b ∈ bars)
    (hwf : ∀ x ∈ bars, x.low ≤ x.close ∧ x.close ≤ x.high)
    (hn : 2 ≤ n) (hrange : priceMin bars < priceMax bars) :
    (findBin (linspace (priceMin bars) (priceMax bars) n) b.close).isSome
      ↔ priceMin bars < b.close := by
  have hinc : strictIncr (linspace (priceMin bars) (priceMax bars) n) = true :=
    linspace_strictIncr hrange hn
  have hlen : (linspace (priceMin bars) (priceMax bars) n).length = n :=
    linspace_length _ _ _
  constructor
  · intro hs
    obtain ⟨i, hi⟩ := Option.isSome_iff_exists.mp hs
    obtain ⟨h1, h2, _⟩ := findBin_sound hi
    have h0 : (linspace (priceMin bars) (priceMax bars) n).getD 0 0
        ≤ (linspace (priceMin bars) (priceMax bars) n).getD i 0 :=
      strictIncr_getD_le hinc (by omega) (by omega)
    have hz : (linspace (priceMin bars) (priceMax bars) n).getD 0 0 = priceMin bars :=
      linspace_getD_zero _ _ (by omega)
    linarith
  · intro hlt
    apply findBin_isSome (by omega)
    · rw [linspace_getD_zero _ _ (by omega)]
      exact hlt
    · rw [hlen, linspace_getD_last _ _ hn]
      exact le_trans (hwf b hb).2 (high_le_priceMax hb)

theorem binMid_lt {bins : List ℚ} (hinc : strictIncr bins = true) {i j : ℕ}
    (hij : i < j) (hj : j + 1 < bins.length) : binMid bins i < binMid bins j := by
  have h1 : bins.getD i 0 < bins.getD j 0 := strictIncr_getD_lt hinc hij (by omega)
  have h2 : bins.getD (i + 1) 0 < bins.getD (j + 1) 0 :=
    strictIncr_getD_lt hinc (by omega) hj
  rw [binMid, binMid]
  linarith

theorem aggregate_pairwise (bars : List Bar) {bins : List ℚ}
    (hinc : strictIncr bins = true) :
    List.Pairwise (fun u v : VolumeBin => u.bin_mid < v.bin_mid)
      (aggregate bars bins) := by
  rw [aggregate, List.pairwise_filterMap]
  have hp := List.pairwise_lt_range (bins.length - 1)
  apply List.Pairwise.imp_of_mem ?_ hp
  intro i j hi hj hij u hu v hv
  rw [List.mem_range] at hi hj
  by_cases hci : (assignedBars bars bins i).isEmpty
  · rw [if_pos hci] at hu
    simp at hu
  · rw [if_neg hci] at hu
    by_cases hcj : (assignedBars bars bins j).isEmpty
    · rw [if_pos hcj] at hv
      simp at hv
    · rw [if_neg hcj] at hv
      have hu' : u = ⟨binMid bins i, ((assignedBars bars bins i).map Bar.volume).sum⟩ := by
        have := hu
        simp at this
        exact this.symm
      have hv' : v = ⟨binMid bins j, ((assignedBars bars bins j).map Bar.volume).sum⟩ := by
        have := hv
        simp at this
        exact this.symm
      rw [hu', hv']
      exact binMid_lt hinc hij (by omega)

theorem aggregate_length (bars : List Bar) (bins : List ℚ) :
    (aggregate bars bins).length
      = ((List.range (bins.length - 1)).filter
          (fun i => !(assignedBars bars bins i).isEmpty)).length := by
  rw [aggregate]
  generalize List.range (bins.length - 1) = l
  induction l with
  | nil => rfl
  | cons i l ih =>
    rw [List.filterMap_cons, List.filter_cons]
    by_cases h : (assignedBars bars bins i).isEmpty
    · rw [if_pos h, if_neg (by simpa using h), ih]
    · rw [if_neg h, if_pos (by simpa using h)]
      simp only [List.length_cons, ih]

/-! ### Value-Area loop -/

theorem vaLoop_down_le_and_le_up (vols : List ℚ) (t : ℚ) :
    ∀ (fuel : ℕ) (cur : ℚ) (up down : ℤ),
      (vaLoop vols t fuel cur up down).2.2 ≤ down
      ∧ up ≤ (vaLoop vols t fuel cur up down).2.1 := by
  intro fuel
  induction fuel with
  | zero => intro cur up down; exact ⟨le_refl _, le_refl _⟩
  | succ f ih =>
    intro cur up down
    simp only [vaLoop]
    split_ifs with h1 h2 h3
    · exact ⟨le_refl _, le_refl _⟩
    · obtain ⟨ha, hb⟩ := ih (cur + vUpOf vols up) (up + 1) down
      exact ⟨ha, le_trans (by omega) hb⟩
    · obtain ⟨ha, hb⟩ := ih (cur + vDownOf vols down) up (down - 1)
      exact ⟨le_trans ha (by omega), hb⟩
    · exact ⟨le_refl _, le_refl _⟩

theorem getD_nonneg {vols : List ℚ} (hnn : ∀ v ∈ vols, 0 ≤ v) (k : ℕ) :
    0 ≤ vols.getD k 0 := by
  by_cases h : k < vols.length
  · rw [List.getD_eq_getElem _ _ h]
    exact hnn _ (List.getElem_mem h)
  · rw [List.getD_eq_default _ _ (by omega)]

theorem vUpOf_nonneg {vols : List ℚ} (hnn : ∀ v ∈ vols, 0 ≤ v) (up : ℤ) :
    0 ≤ vUpOf vols up := by
  rw [vUpOf]
  split_ifs with h
  · rw [volAt]
    split_ifs with h2
    · exact getD_nonneg hnn _
    · exact le_refl 0
  · exact le_refl 0

theorem vDownOf_nonneg {vols : List ℚ} (hnn : ∀ v ∈ vols, 0 ≤ v) (down : ℤ) :
    0 ≤ vDownOf vols down := by
  rw [vDownOf]
  split_ifs with h
  · rw [volAt, if_pos h]
    exact getD_nonneg hnn _
  · exact le_refl 0

theorem vUpOf_ne_zero_range {vols : List ℚ} {up : ℤ} (h : vUpOf vols up ≠ 0) :
    up + 1 < (vols.length : ℤ) := by
  by_contra hc
  rw [vUpOf, if_neg hc] at h
  exact h rfl

theorem vDownOf_ne_zero_range {vols : List ℚ} {down : ℤ} (h : vDownOf vols down ≠ 0) :
    0 ≤ down - 1 := by
  by_contra hc
  rw [vDownOf, if_neg hc] at h
  exact h rfl

theorem vUpOf_eq_getD {vols : List ℚ} {up : ℤ} (h0 : 0 ≤ up + 1)
    (h : up + 1 < (vols.length : ℤ)) :
    vUpOf vols up = vols.getD (up + 1).toNat 0 := by
  rw [vUpOf, if_pos h, volAt, if_pos h0]

theorem vDownOf_eq_getD {vols : List ℚ} {down : ℤ} (h : 0 ≤ down - 1) :
    vDownOf vols down = vols.getD (down - 1).toNat 0 := by
  rw [vDownOf, if_pos h, volAt, if_pos h]

theorem intervalVol_eq (vols : List ℚ) (d u : ℤ) :
    intervalVol vols d u
      = ((List.range vols.length).map
          (fun i : ℕ => if d ≤ (i : ℤ) ∧ (i : ℤ) ≤ u then vols.getD i 0 else 0)).sum := by
  rw [intervalVol, sum_map_filter]
  apply congrArg List.sum
  apply List.map_congr_left
  intro i _
  by_cases h : d ≤ (i : ℤ) ∧ (i : ℤ) ≤ u
  · rw [if_pos (by simpa using h), if_pos h]
  · rw [if_neg (by simpa using h), if_neg h]

theorem intervalVol_single {vols : List ℚ} {k : ℕ} (hk : k < vols.length) :
    intervalVol vols k k = vols.getD k 0 := by
  rw [intervalVol_eq]
  have hcong : ∀ i ∈ List.range vols.length,
      (if (k : ℤ) ≤ (i : ℤ) ∧ (i : ℤ) ≤ (k : ℤ) then vols.getD i 0 else 0)
        = (if k = i then vols.getD i 0 else 0) := by
    intro i _
    by_cases h : k = i
    · rw [if_pos (by omega), if_pos h]
    · rw [if_neg (by omega), if_neg h]
  rw [List.map_congr_left hcong]
  exact sum_range_ind _ hk

theorem intervalVol_extend_up {vols : List ℚ} {d u : ℤ}
    (hd : d ≤ u + 1) (h0 : 0 ≤ u + 1) (hu : u + 1 < (vols.length : ℤ)) :
    intervalVol vols d (u + 1) = intervalVol vols d u + vols.getD (u + 1).toNat 0 := by
  rw [intervalVol_eq, intervalVol_eq]
  have hcong : ∀ i ∈ List.range vols.length,
      (if d ≤ (i : ℤ) ∧ (i : ℤ) ≤ u + 1 then vols.getD i 0 else 0)
        = (if d ≤ (i : ℤ) ∧ (i : ℤ) ≤ u then vols.getD i 0 else 0)
          + (if (u + 1).toNat = i then vols.getD i 0 else 0) := by
    intro i _
    by_cases h1 : (i : ℤ) = u + 1
    · rw [if_pos (by omega), if_neg (by omega), if_pos (by omega)]
      ring
    · by_cases h2 : d ≤ (i : ℤ) ∧ (i : ℤ) ≤ u
      · rw [if_pos (by omega), if_pos h2, if_neg (by omega)]
        ring
      · rw [if_neg (by omega), if_neg h2, if_neg (by omega)]
        ring
  rw [List.map_congr_left hcong, List.sum_map_add]
  congr 1
  exact sum_range_ind _ (by omega)

theorem intervalVol_extend_down {vols : List ℚ} {d u : ℤ}
    (hdu : d - 1 ≤ u) (h0 : 0 ≤ d - 1) (hu : u < (vols.length : ℤ)) :
    intervalVol vols (d - 1) u = intervalVol vols d u + vols.getD (d - 1).toNat 0 := by
  rw [intervalVol_eq, intervalVol_eq]
  have hcong : ∀ i ∈ List.range vols.length,
      (if d - 1 ≤ (i : ℤ) ∧ (i : ℤ) ≤ u then vols.getD i 0 else 0)
        = (if d ≤ (i : ℤ) ∧ (i : ℤ) ≤ u then vols.getD i 0 else 0)
          + (if (d - 1).toNat = i then vols.getD i 0 else 0) := by
    intro i _
    by_cases h1 : (i : ℤ) = d - 1
    · rw [if_pos (by omega), if_neg (by omega), if_pos (by omega)]
      ring
    · by_cases h2 : d ≤ (i : ℤ) ∧ (i : ℤ) ≤ u
      · rw [if_pos (by omega), if_pos h2, if_neg (by omega)]
        ring
      · rw [if_neg (by omega), if_neg h2, if_neg (by omega)]
        ring
  rw [List.map_congr_left hcong, List.sum_map_add]
  congr 1
  exact sum_range_ind _ (by omega)

/-- Combined invariant of the Value-Area loop: with nonnegative bucket
volumes and enough fuel the loop reaches a terminal state (target met,
or both neighbour volumes zero), the indices stay inside the profile,
the accumulator tracks the interval volume, and extra fuel changes
nothing. -/
theorem vaLoop_spec {vols : List ℚ} (hnn : ∀ v ∈ vols, 0 ≤ v) (t : ℚ) :
    ∀ (fuel : ℕ) (cur : ℚ) (up down : ℤ),
      0 ≤ down → down ≤ up → up < (vols.length : ℤ) →
      ((vols.length : ℤ) - 1 - up).toNat + down.toNat < fuel →
      (t ≤ (vaLoop vols t fuel cur up down).1
          ∨ (vUpOf vols (vaLoop vols t fuel cur up down).2.1 = 0
             ∧ vDownOf vols (vaLoop vols t fuel cur up down).2.2 = 0))
        ∧ 0 ≤ (vaLoop vols t fuel cur up down).2.2
        ∧ (vaLoop vols t fuel cur up down).2.2 ≤ (vaLoop vols t fuel cur up down).2.1
        ∧ (vaLoop vols t fuel cur up down).2.1 < (vols.length : ℤ)
        ∧ (vaLoop vols t fuel cur up down).1
            - intervalVol vols (vaLoop vols t fuel cur up down).2.2
                (vaLoop vols t fuel cur up down).2.1
            = cur - intervalVol vols down up
        ∧ ∀ extra, vaLoop vols t (fuel + extra) cur up down
            = vaLoop vols t fuel cur up down := by
  intro fuel
  induction fuel with
  | zero => intro cur up down h1 h2 h3 h4; omega
  | succ f ih =>
    intro cur up down hd hdu hu hmeas
    by_cases hlt : cur < t
    · by_cases hbrk : vUpOf vols up = 0 ∧ vDownOf vols down = 0
      · have hL : vaLoop vols t (f + 1) cur up down = (cur, up, down) := by
          simp only [vaLoop]
          rw [if_pos hlt, if_pos hbrk]
        have hstab : ∀ extra,
            vaLoop vols t (f + 1 + extra) cur up down = (cur, up, down) := by
          intro extra
          have heq : f + 1 + extra = (f + extra) + 1 := by omega
          rw [heq]
          simp only [vaLoop]
          rw [if_pos hlt, if_pos hbrk]
        rw [hL]
        refine ⟨Or.inr ⟨hbrk.1, hbrk.2⟩, hd, hdu, hu, rfl, ?_⟩
        intro extra
        rw [hstab extra]
      · have hvU0 : 0 ≤ vUpOf vols up := vUpOf_nonneg hnn up
        have hvD0 : 0 ≤ vDownOf vols down := vDownOf_nonneg hnn down
        by_cases hcmp : vDownOf vols down ≤ vUpOf vols up
        · -- the loop expands upward
          have hvUpos : vUpOf vols up ≠ 0 := by
            intro hz
            exact hbrk ⟨hz, le_antisymm (hz ▸ hcmp) hvD0⟩
          have hup1 : up + 1 < (vols.length : ℤ) := vUpOf_ne_zero_range hvUpos
          have hL : vaLoop vols t (f + 1) cur up down
              = vaLoop vols t f (cur + vUpOf vols up) (up + 1) down := by
            simp only [vaLoop]
            rw [if_pos hlt, if_neg hbrk, if_pos hcmp]
          obtain ⟨hA, hB, hC, hD, hE, hF⟩ :=
            ih (cur + vUpOf vols up) (up + 1) down hd (by omega) hup1 (by omega)
          rw [hL]
          refine ⟨hA, hB, hC, hD, ?_, ?_⟩
          · rw [hE, intervalVol_extend_up (by omega) (by omega) hup1,
              vUpOf_eq_getD (by omega) hup1]
            ring
          · intro extra
            have heq : f + 1 + extra = (f + extra) + 1 := by omega
            rw [heq]
            simp only [vaLoop]
            rw [if_pos hlt, if_neg hbrk, if_pos hcmp, hF extra]
        · -- the loop expands downward
          have hvDpos : vDownOf vols down ≠ 0 := by
            intro hz
            rw [hz] at hcmp
            exact hcmp hvU0
          have hdn1 : 0 ≤ down - 1 := vDownOf_ne_zero_range hvDpos
          have hL : vaLoop vols t (f + 1) cur up down
              = vaLoop vols t f (cur + vDownOf vols down) up (down - 1) := by
            simp only [vaLoop]
            rw [if_pos hlt, if_neg hbrk, if_neg hcmp]
          obtain ⟨hA, hB, hC, hD, hE, hF⟩ :=
            ih (cur + vDownOf vols down) up (down - 1) hdn1 (by omega) hu (by omega)
          rw [hL]
          refine ⟨hA, hB, hC, hD, ?_, ?_⟩
          · rw [hE, intervalVol_extend_down (by omega) hdn1 hu,
              vDownOf_eq_getD hdn1]
            ring
          · intro extra
            have heq : f + 1 + extra = (f + extra) + 1 := by omega
            rw [heq]
            simp only [vaLoop]
            rw [if_pos hlt, if_neg hbrk, if_neg hcmp, hF extra]
    · have hL : vaLoop vols t (f + 1) cur up down = (cur, up, down) := by
        simp only [vaLoop]
        rw [if_neg hlt]
      rw [hL]
      refine ⟨Or.inl (le_of_not_lt hlt), hd, hdu, hu, rfl, ?_⟩
      intro extra
      have heq : f + 1 + extra = (f + extra) + 1 := by omega
      rw [heq]
      simp only [vaLoop]
      rw [if_neg hlt]

/-! ### `idxmax` -/

theorem idxmax_eq_none_iff (vols : List ℚ) : idxmax vols = none ↔ vols = [] := by
  cases vols with
  | nil => simp [idxmax]
  | cons x xs =>
    rw [idxmax]
    cases h : idxmax xs with
    | none => simp
    | some j =>
      show (if x < xs.getD j 0 then some (j + 1) else some 0) = none ↔ x :: xs = []
      split_ifs <;> simp

theorem idxmax_spec {vols : List ℚ} {i : ℕ} (h : idxmax vols = some i) :
    i < vols.length
    ∧ (∀ j, j < vols.length → vols.getD j 0 ≤ vols.getD i 0)
    ∧ (∀ j, j < i → vols.getD j 0 < vols.getD i 0) := by
  induction vols generalizing i with
  | nil => simp [idxmax] at h
  | cons x xs ih =>
    rw [idxmax] at h
    cases hx : idxmax xs with
    | none =>
      rw [hx] at h
      have hxs : xs = [] := (idxmax_eq_none_iff xs).mp hx
      subst hxs
      simp only [Option.some.injEq] at h
      subst h
      refine ⟨by simp, ?_, ?_⟩
      · intro j hj
        have hj0 : j = 0 := by simpa using hj
        subst hj0
        exact le_refl _
      · intro j hj
        omega
    | some k =>
      rw [hx] at h
      replace h : (if x < xs.getD k 0 then some (k + 1) else some 0) = some i := h
      obtain ⟨hk, hmax, hfirst⟩ := ih hx
      by_cases hcmp : x < xs.getD k 0
      · rw [if_pos hcmp] at h
        simp only [Option.some.injEq] at h
        subst h
        refine ⟨by simp only [List.length_cons]; omega, ?_, ?_⟩
        · intro j hj
          cases j with
          | zero =>
            simp only [List.getD_cons_zero, List.getD_cons_succ]
            exact le_of_lt hcmp
          | succ m =>
            simp only [List.getD_cons_succ]
            exact hmax m (by simpa using hj)
        · intro j hj
          cases j with
          | zero =>
            simp only [List.getD_cons_zero, List.getD_cons_succ]
            exact hcmp
          | succ m =>
            simp only [List.getD_cons_succ]
            exact hfirst m (by omega)
      · rw [if_neg hcmp] at h
        simp only [Option.some.injEq] at h
        subst h
        refine ⟨by simp, ?_, ?_⟩
        · intro j hj
          cases j with
          | zero => exact le_refl _
          | succ m =>
            simp only [List.getD_cons_succ, List.getD_cons_zero]
            exact le_trans (hmax m (by simpa using hj)) (le_of_not_lt hcmp)
        · intro j hj
          omega

theorem getD_of_all_zero {xs : List ℚ} (hz : ∀ v ∈ xs, v = 0) (j : ℕ) :
    xs.getD j 0 = 0 := by
  by_cases h : j < xs.length
  · rw [List.getD_eq_getElem _ _ h]
    exact hz _ (List.getElem_mem h)
  · rw [List.getD_eq_default _ _ (by omega)]

theorem idxmax_of_all_zero {vols : List ℚ} (hne : vols ≠ [])
    (hz : ∀ v ∈ vols, v = 0) : idxmax vols = some 0 := by
  cases vols with
  | nil => exact absurd rfl hne
  | cons x xs =>
    rw [idxmax]
    cases hx : idxmax xs with
    | none => rfl
    | some j =>
      have h1 : x = 0 := hz x (by simp)
      have h2 : xs.getD j 0 = 0 := getD_of_all_zero (fun v hv => hz v (by simp [hv])) j
      show (if x < xs.getD j 0 then some (j + 1) else some 0) = some 0
      rw [h1, h2, if_neg (lt_irrefl 0)]

/-! ### Value-Area corollaries -/

theorem computeValueArea_spec {vols : List ℚ} (hnn : ∀ v ∈ vols, 0 ≤ v)
    {poc : ℕ} (hpoc : poc < vols.length) (frac : ℚ) :
    (computeValueArea vols poc frac).1
      = intervalVol vols (computeValueArea vols poc frac).2.2
          (computeValueArea vols poc frac).2.1
    ∧ (vols.sum * frac ≤ (computeValueArea vols poc frac).1
        ∨ (vUpOf vols (computeValueArea vols poc frac).2.1 = 0
           ∧ vDownOf vols (computeValueArea vols poc frac).2.2 = 0)) := by
  obtain ⟨hA, _, _, _, hE, _⟩ :=
    vaLoop_spec hnn (vols.sum * frac) vols.length (vols.getD poc 0)
      poc poc (by omega) (by omega) (by exact_mod_cast hpoc) (by omega)
  have hinit : intervalVol vols (poc : ℤ) (poc : ℤ) = vols.getD poc 0 :=
    intervalVol_single hpoc
  constructor
  · simp only [computeValueArea]
    rw [hinit] at hE
    linarith
  · simpa only [computeValueArea] using hA

theorem computeValueArea_all_zero {vols : List ℚ} (hne : vols ≠ [])
    (hz : ∀ v ∈ vols, v = 0) (frac : ℚ) :
    computeValueArea vols 0 frac = (0, 0, 0) := by
  have hsum : vols.sum = 0 := List.sum_eq_zero hz
  cases vols with
  | nil => exact absurd rfl hne
  | cons x xs =>
    have hx : x = 0 := hz x (by simp)
    subst hx
    simp only [computeValueArea, List.length_cons, List.getD_cons_zero, hsum,
      zero_mul, vaLoop]
    rw [if_neg (lt_irrefl 0)]
    simp

/-! ### Claims -/

/-- C1 counterexample: in the spec's own scenario (closes `10, 10, 20`,
volumes `5, 5, 10`, boundaries `[10, 15, 20]`) the code drops the bars
closing at `priceMin = 10` — `pd.cut`'s first interval is `(10, 15]`,
not `[10, 15)` — and a close of `15` goes to bucket 0, not to a
half-open `[15, 20)` bucket; only one bucket survives, with volume 10,
instead of the claimed two buckets `[10, 10]`. -/
theorem C1_counterexample :
    priceMin [⟨10,20,10,5⟩, ⟨10,20,10,5⟩, (⟨10,20,20,10⟩ : Bar)] = 10
    ∧ priceMax [⟨10,20,10,5⟩, ⟨10,20,10,5⟩, (⟨10,20,20,10⟩ : Bar)] = 20
    ∧ linspace 10 20 3 = [10, 15, 20]
    ∧ findBin [10, 15, 20] 10 = none
    ∧ findBin [10, 15, 20] 15 = some 0
    ∧ aggregate [⟨10,20,10,5⟩, ⟨10,20,10,5⟩, (⟨10,20,20,10⟩ : Bar)] [10, 15, 20]
        = [⟨35/2, 10⟩] := by
  refine ⟨?_, ?_, ?_, ?_, ?_, ?_⟩
  · norm_num [priceMin]
  · norm_num [priceMax]
  · norm_num [linspace, List.range_succ]
  · norm_num [findBin]
  · norm_num [findBin]
  · norm_num [aggregate, assignedBars, binMid, findBin, List.range_succ,
      List.filter_cons, List.filterMap_cons, beq_iff_eq]

/-- C1 (amended): the buckets `pd.cut` uses are left-open/right-closed
`(boundary[i], boundary[i+1]]`. A close equal to `priceMax` does land in
the last bucket, and a close strictly above `priceMin` lands in the
unique bucket with `boundary[i] < close ≤ boundary[i+1]`, but a close
exactly equal to `priceMin` matches no bucket and is dropped (NaN), not
placed in the first bucket. -/
theorem C1_binning (bars : List Bar) (n : ℕ) (b : Bar) (hb : b ∈ bars)
    (hwf : ∀ x ∈ bars, x.low ≤ x.close ∧ x.close ≤ x.high)
    (hn : 2 ≤ n) (hrange : priceMin bars < priceMax bars) :
    (b.close = priceMin bars
      → findBin (linspace (priceMin bars) (priceMax bars) n) b.close = none)
    ∧ (priceMin bars < b.close
      → ∃ i, findBin (linspace (priceMin bars) (priceMax bars) n) b.close = some i
          ∧ i + 1 < n
          ∧ (linspace (priceMin bars) (priceMax bars) n).getD i 0 < b.close
          ∧ b.close ≤ (linspace (priceMin bars) (priceMax bars) n).getD (i + 1) 0)
    ∧ (b.close = priceMax bars
      → findBin (linspace (priceMin bars) (priceMax bars) n) b.close
          = some (n - 2)) := by
  have hinc := linspace_strictIncr hrange hn
  have hlen := linspace_length (priceMin bars) (priceMax bars) n
  refine ⟨?_, ?_, ?_⟩
  · intro hc
    apply findBin_none_of_le hinc
    rw [linspace_getD_zero _ _ (by omega), hc]
  · intro hlt
    have hs := (findBin_isSome_iff hb hwf hn hrange).mpr hlt
    obtain ⟨i, hi⟩ := Option.isSome_iff_exists.mp hs
    obtain ⟨h1, h2, h3⟩ := findBin_sound hi
    rw [hlen] at h1
    exact ⟨i, hi, h1, h2, h3⟩
  · intro hc
    have hfl := findBin_last hinc (by rw [hlen]; omega)
    rw [hlen, linspace_getD_last (priceMin bars) (priceMax bars) hn] at hfl
    rw [hc]
    exact hfl

/-- Witness for C1: two bars with range `[10, 20]`, three boundaries;
the witness bar closes at `priceMax = 20`. -/
theorem C1_witness :
    ((⟨10,20,20,3⟩ : Bar).close = priceMin [(⟨10,20,12,5⟩ : Bar), ⟨10,20,20,3⟩]
      → findBin (linspace (priceMin [(⟨10,20,12,5⟩ : Bar), ⟨10,20,20,3⟩])
          (priceMax [(⟨10,20,12,5⟩ : Bar), ⟨10,20,20,3⟩]) 3)
          (⟨10,20,20,3⟩ : Bar).close = none)
    ∧ (priceMin [(⟨10,20,12,5⟩ : Bar), ⟨10,20,20,3⟩] < (⟨10,20,20,3⟩ : Bar).close
      → ∃ i, findBin (linspace (priceMin [(⟨10,20,12,5⟩ : Bar), ⟨10,20,20,3⟩])
            (priceMax [(⟨10,20,12,5⟩ : Bar), ⟨10,20,20,3⟩]) 3)
            (⟨10,20,20,3⟩ : Bar).close = some i
          ∧ i + 1 < 3
          ∧ (linspace (priceMin [(⟨10,20,12,5⟩ : Bar), ⟨10,20,20,3⟩])
              (priceMax [(⟨10,20,12,5⟩ : Bar), ⟨10,20,20,3⟩]) 3).getD i 0
              < (⟨10,20,20,3⟩ : Bar).close
          ∧ (⟨10,20,20,3⟩ : Bar).close
              ≤ (linspace (priceMin [(⟨10,20,12,5⟩ : Bar), ⟨10,20,20,3⟩])
                  (priceMax [(⟨10,20,12,5⟩ : Bar), ⟨10,20,20,3⟩]) 3).getD (i + 1) 0)
    ∧ ((⟨10,20,20,3⟩ : Bar).close = priceMax [(⟨10,20,12,5⟩ : Bar), ⟨10,20,20,3⟩]
      → findBin (linspace (priceMin [(⟨10,20,12,5⟩ : Bar), ⟨10,20,20,3⟩])
          (priceMax [(⟨10,20,12,5⟩ : Bar), ⟨10,20,20,3⟩]) 3)
          (⟨10,20,20,3⟩ : Bar).close = some (3 - 2)) :=
  C1_binning [(⟨10,20,12,5⟩ : Bar), ⟨10,20,20,3⟩] 3 ⟨10,20,20,3⟩ (by simp)
    (by norm_num) (by norm_num) (by norm_num [priceMin, priceMax])

/-- C2 counterexample: two bars whose closes (10 and 20) both lie inside
`[priceMin, priceMax] = [10, 20]`, yet the aggregated volume is 7, not
the total 12 — the bar closing exactly at `priceMin` is dropped by
`pd.cut`, so volume *is* lost on an input the claim covers. -/
theorem C2_counterexample :
    priceMin [⟨10,20,10,5⟩, (⟨10,20,20,7⟩ : Bar)] = 10
    ∧ priceMax [⟨10,20,10,5⟩, (⟨10,20,20,7⟩ : Bar)] = 20
    ∧ (∀ b ∈ [⟨10,20,10,5⟩, (⟨10,20,20,7⟩ : Bar)], 10 ≤ b.close ∧ b.close ≤ 20)
    ∧ ((aggregate [⟨10,20,10,5⟩, (⟨10,20,20,7⟩ : Bar)] (linspace 10 20 3)).map
        VolumeBin.volume).sum = 7
    ∧ ([⟨10,20,10,5⟩, (⟨10,20,20,7⟩ : Bar)].map Bar.volume).sum = 12
    ∧ (7 : ℚ) ≠ 12 := by
  refine ⟨by norm_num [priceMin], by norm_num [priceMax], by norm_num, ?_,
    by norm_num, by norm_num⟩
  norm_num [aggregate, assignedBars, binMid, findBin, linspace, List.range_succ,
    List.filter_cons, List.filterMap_cons, beq_iff_eq]

/-- C2 (amended): the sum of aggregated volumes equals the total bar
volume minus the volume of the bars whose close is exactly `priceMin`
(those are the only ones `pd.cut` drops, since every close lies in
`[priceMin, priceMax]` by bar well-formedness but the bottom edge is
open). -/
theorem C2_volume_conservation (bars : List Bar) (n : ℕ)
    (hwf : ∀ x ∈ bars, x.low ≤ x.close ∧ x.close ≤ x.high)
    (hn : 2 ≤ n) (hrange : priceMin bars < priceMax bars) :
    ((aggregate bars (linspace (priceMin bars) (priceMax bars) n)).map
        VolumeBin.volume).sum
      = (bars.map Bar.volume).sum
        - ((bars.filter (fun b => b.close == priceMin bars)).map Bar.volume).sum := by
  rw [aggregate_sum_kept]
  have hpart := sum_filter_partition bars
    (fun b => (findBin (linspace (priceMin bars) (priceMax bars) n) b.close).isSome)
    Bar.volume
  have hdrop : bars.filter
      (fun b => !((findBin (linspace (priceMin bars) (priceMax bars) n) b.close).isSome))
      = bars.filter (fun b => b.close == priceMin bars) := by
    apply List.filter_congr
    intro b hb
    have hiff := findBin_isSome_iff hb hwf hn hrange
    have hminle : priceMin bars ≤ b.close :=
      le_trans (priceMin_le_low hb) (hwf b hb).1
    cases hs : (findBin (linspace (priceMin bars) (priceMax bars) n) b.close).isSome with
    | true =>
      have hlt := hiff.mp hs
      have hne : b.close ≠ priceMin bars := ne_of_gt hlt
      simp [hs, hne]
    | false =>
      have hnlt : ¬ priceMin bars < b.close := by
        intro hl
        rw [hiff.mpr hl] at hs
        exact absurd hs (by simp)
      have heq : b.close = priceMin bars := le_antisymm (le_of_not_lt hnlt) hminle
      simp [hs, heq]
  rw [hdrop] at hpart
  linarith

/-- Witness for C2: the counterexample input itself — total 12, dropped
volume 5 (the bar closing at `priceMin`), aggregated 7. -/
theorem C2_witness :
    ((aggregate [⟨10,20,10,5⟩, (⟨10,20,20,7⟩ : Bar)]
        (linspace (priceMin [⟨10,20,10,5⟩, (⟨10,20,20,7⟩ : Bar)])
          (priceMax [⟨10,20,10,5⟩, (⟨10,20,20,7⟩ : Bar)]) 3)).map
        VolumeBin.volume).sum
      = ([⟨10,20,10,5⟩, (⟨10,20,20,7⟩ : Bar)].map Bar.volume).sum
        - (([⟨10,20,10,5⟩, (⟨10,20,20,7⟩ : Bar)].filter
            (fun b => b.close == priceMin [⟨10,20,10,5⟩, (⟨10,20,20,7⟩ : Bar)])).map
            Bar.volume).sum :=
  C2_volume_conservation [⟨10,20,10,5⟩, (⟨10,20,20,7⟩ : Bar)] 3
    (by norm_num) (by norm_num) (by norm_num [priceMin, priceMax])

/-- C3 counterexample: boundaries `[10, 20, 30, 40]` give three buckets,
but with bars closing only in buckets 0 and 2 the output has just two
rows — `observed=True` drops the empty middle bucket, so the row at
position 1 carries midpoint 35 (bucket 2), not bucket 1's midpoint 25:
positional indices are not aligned with the bucket list. -/
theorem C3_counterexample :
    linspace 10 40 4 = [10, 20, 30, 40]
    ∧ aggregate [⟨10,40,15,5⟩, (⟨10,40,35,7⟩ : Bar)] [10, 20, 30, 40]
        = [⟨15, 5⟩, ⟨35, 7⟩]
    ∧ ([10, 20, 30, 40] : List ℚ).length - 1 = 3
    ∧ binMid [10, 20, 30, 40] 1 = 25 := by
  refine ⟨?_, ?_, by norm_num, by norm_num [binMid]⟩
  · norm_num [linspace, List.range_succ]
  · norm_num [aggregate, assignedBars, binMid, findBin, List.range_succ,
      List.filter_cons, List.filterMap_cons, beq_iff_eq]

/-- C3 (amended): the aggregation outputs one VolumeBin per *observed*
bucket (a bucket some bar's close fell into — zero-volume bars count as
observed), in strictly ascending midpoint order; buckets no close fell
into are dropped, so the output length is the number of observed
buckets, not the number of buckets. -/
theorem C3_sorted_observed (bars : List Bar) (bins : List ℚ)
    (hinc : strictIncr bins = true) :
    List.Pairwise (fun u v : VolumeBin => u.bin_mid < v.bin_mid)
      (aggregate bars bins)
    ∧ (aggregate bars bins).length
        = ((List.range (bins.length - 1)).filter
            (fun i => !(assignedBars bars bins i).isEmpty)).length :=
  ⟨aggregate_pairwise bars hinc, aggregate_length bars bins⟩

/-- Witness for C3: the counterexample input (two observed buckets out
of three). -/
theorem C3_witness :
    List.Pairwise (fun u v : VolumeBin => u.bin_mid < v.bin_mid)
      (aggregate [⟨10,40,15,5⟩, (⟨10,40,35,7⟩ : Bar)] [10, 20, 30, 40])
    ∧ (aggregate [⟨10,40,15,5⟩, (⟨10,40,35,7⟩ : Bar)] [10, 20, 30, 40]).length
        = ((List.range (([10, 20, 30, 40] : List ℚ).length - 1)).filter
            (fun i => !(assignedBars [⟨10,40,15,5⟩, (⟨10,40,35,7⟩ : Bar)]
                [10, 20, 30, 40] i).isEmpty)).length :=
  C3_sorted_observed [⟨10,40,15,5⟩, (⟨10,40,35,7⟩ : Bar)] [10, 20, 30, 40]
    (by norm_num [strictIncr])

/-- C4 counterexample: a single bar with volume 0 (close 15, range
`[10, 20]`) produces a successful profile — POC index 0, value area
collapsed onto it — not an `EmptyProfileError`; and `idxmax` on the
all-zero one-bucket column returns index 0 rather than failing. -/
theorem C4_counterexample :
    computeProfile [(⟨10, 20, 15, 0⟩ : Bar)] 3 (7/10) = .ok (0, 25/2, 0, 0, 0)
    ∧ idxmax [(0 : ℚ)] = some 0 := by
  constructor
  · norm_num [computeProfile, buildPriceBins, cut, strictIncr, aggregate,
      assignedBars, binMid, findBin, linspace, List.range_succ, List.filter_cons,
      List.filterMap_cons, beq_iff_eq, idxmax, computeValueArea, vaLoop,
      priceMin, priceMax, Bind.bind, Except.bind]
  · norm_num [idxmax]

/-- C4 (amended): the POC computation fails exactly when the volume
column is empty (pandas `idxmax` raises there, caught by the generic
handler); a non-empty all-zero column does not fail — it yields POC
index 0. A single zero-volume bar therefore errors only when the
binning drops its close (close = priceMin); otherwise it yields a
profile. -/
theorem C4_poc_fail_iff_empty (vols : List ℚ) :
    (idxmax vols = none ↔ vols = [])
    ∧ (vols ≠ [] → (∀ v ∈ vols, v = 0) → idxmax vols = some 0) :=
  ⟨idxmax_eq_none_iff vols, fun hne hz => idxmax_of_all_zero hne hz⟩

/-- Witness for C4: the singleton zero column. -/
theorem C4_witness :
    (idxmax [(0 : ℚ)] = none ↔ [(0 : ℚ)] = [])
    ∧ ([(0 : ℚ)] ≠ [] → (∀ v ∈ [(0 : ℚ)], v = 0) → idxmax [(0 : ℚ)] = some 0) :=
  C4_poc_fail_iff_empty [0]

/-- C5 counterexample: a degenerate price range (priceMin = priceMax =
10) does **not** fail bin construction — `np.linspace` returns the
constant list `[10, 10, 10]`; the failure the claim attributes to
`buildPriceBins` only surfaces later, at `pd.cut`'s
strictly-increasing check. `binsCount = 1 < 2` likewise builds `[10]`
without error. -/
theorem C5_counterexample :
    buildPriceBins [(⟨10, 10, 10, 5⟩ : Bar)] 3 = .ok [10, 10, 10]
    ∧ strictIncr [10, 10, 10] = false
    ∧ buildPriceBins [(⟨10, 20, 15, 5⟩ : Bar)] 1 = .ok [10] := by
  refine ⟨?_, by norm_num [strictIncr], ?_⟩
  · norm_num [buildPriceBins, priceMin, priceMax, linspace, List.range_succ]
  · norm_num [buildPriceBins, priceMin, priceMax, linspace, List.range_succ]

/-- C5 (amended): bin construction fails only on an empty bar sequence
(the `df.empty` warning path); otherwise it returns the `linspace`
boundaries unconditionally. For `priceMin < priceMax` and
`binsCount ≥ 2` those are `binsCount` strictly increasing values from
`priceMin` to `priceMax` inclusive; for `priceMin = priceMax` they are
constant, and it is the cut step that fails, with pandas' "bins must
increase monotonically" error. -/
theorem C5_buildPriceBins_spec (bars : List Bar) (n : ℕ) :
    (bars = [] → buildPriceBins bars n = .error "no data")
    ∧ (bars ≠ [] → buildPriceBins bars n
        = .ok (linspace (priceMin bars) (priceMax bars) n))
    ∧ (priceMin bars < priceMax bars → 2 ≤ n →
        (linspace (priceMin bars) (priceMax bars) n).length = n
        ∧ (linspace (priceMin bars) (priceMax bars) n).getD 0 0 = priceMin bars
        ∧ (linspace (priceMin bars) (priceMax bars) n).getD (n - 1) 0 = priceMax bars
        ∧ strictIncr (linspace (priceMin bars) (priceMax bars) n) = true)
    ∧ (priceMin bars = priceMax bars → 2 ≤ n →
        strictIncr (linspace (priceMin bars) (priceMax bars) n) = false
        ∧ cut (linspace (priceMin bars) (priceMax bars) n) (bars.map Bar.close)
            = .error "bins must increase monotonically") := by
  refine ⟨?_, ?_, ?_, ?_⟩
  · intro h
    subst h
    rfl
  · intro h
    rw [buildPriceBins, if_neg (by simpa using h)]
  · intro hlt hn
    exact ⟨linspace_length _ _ _, linspace_getD_zero _ _ (by omega),
      linspace_getD_last _ _ hn, linspace_strictIncr hlt hn⟩
  · intro heq hn
    have hfalse : strictIncr (linspace (priceMin bars) (priceMax bars) n) = false := by
      cases h : strictIncr (linspace (priceMin bars) (priceMax bars) n) with
      | false => rfl
      | true =>
        exfalso
        have hadj := strictIncr_adj h (i := 0) (by rw [linspace_length]; omega)
        rw [linspace_getD _ _ (show (0 : ℕ) < n by omega),
          linspace_getD _ _ (show (1 : ℕ) < n by omega), heq] at hadj
        simp [sub_self] at hadj
    refine ⟨hfalse, ?_⟩
    rw [cut, if_neg (by rw [hfalse]; simp)]

/-- Witness for C5: one bar with range `[10, 20]`, two boundaries. -/
theorem C5_witness :
    ([(⟨10, 20, 15, 5⟩ : Bar)] = []
      → buildPriceBins [(⟨10, 20, 15, 5⟩ : Bar)] 2 = .error "no data")
    ∧ ([(⟨10, 20, 15, 5⟩ : Bar)] ≠ []
      → buildPriceBins [(⟨10, 20, 15, 5⟩ : Bar)] 2
          = .ok (linspace (priceMin [(⟨10, 20, 15, 5⟩ : Bar)])
              (priceMax [(⟨10, 20, 15, 5⟩ : Bar)]) 2))
    ∧ (priceMin [(⟨10, 20, 15, 5⟩ : Bar)] < priceMax [(⟨10, 20, 15, 5⟩ : Bar)]
      → 2 ≤ 2 →
        (linspace (priceMin [(⟨10, 20, 15, 5⟩ : Bar)])
            (priceMax [(⟨10, 20, 15, 5⟩ : Bar)]) 2).length = 2
        ∧ (linspace (priceMin [(⟨10, 20, 15, 5⟩ : Bar)])
            (priceMax [(⟨10, 20, 15, 5⟩ : Bar)]) 2).getD 0 0
            = priceMin [(⟨10, 20, 15, 5⟩ : Bar)]
        ∧ (linspace (priceMin [(⟨10, 20, 15, 5⟩ : Bar)])
            (priceMax [(⟨10, 20, 15, 5⟩ : Bar)]) 2).getD (2 - 1) 0
            = priceMax [(⟨10, 20, 15, 5⟩ : Bar)]
        ∧ strictIncr (linspace (priceMin [(⟨10, 20, 15, 5⟩ : Bar)])
            (priceMax [(⟨10, 20, 15, 5⟩ : Bar)]) 2) = true)
    ∧ (priceMin [(⟨10, 20, 15, 5⟩ : Bar)] = priceMax [(⟨10, 20, 15, 5⟩ : Bar)]
      → 2 ≤ 2 →
        strictIncr (linspace (priceMin [(⟨10, 20, 15, 5⟩ : Bar)])
            (priceMax [(⟨10, 20, 15, 5⟩ : Bar)]) 2) = false
        ∧ cut (linspace (priceMin [(⟨10, 20, 15, 5⟩ : Bar)])
              (priceMax [(⟨10, 20, 15, 5⟩ : Bar)]) 2)
            ([(⟨10, 20, 15, 5⟩ : Bar)].map Bar.close)
            = .error "bins must increase monotonically") :=
  C5_buildPriceBins_spec [(⟨10, 20, 15, 5⟩ : Bar)] 2

/-- C6: whenever `idxmax` returns an index, it is in range, its entry is
the maximum of the column, and every earlier entry is strictly smaller —
the first maximal bucket in ascending-price scan order wins ties. This
holds for every column on which the POC is computed, in particular the
non-empty ones with a positive volume. -/
theorem C6_poc_first_max {vols : List ℚ} {i : ℕ} (h : idxmax vols = some i) :
    i < vols.length
    ∧ (∀ j, j < vols.length → vols.getD j 0 ≤ vols.getD i 0)
    ∧ (∀ j, j < i → vols.getD j 0 < vols.getD i 0) :=
  idxmax_spec h

/-- Witness for C6: column `[1, 3, 3, 2]` — the maximum 3 first occurs
at index 1, and the tie at index 2 loses. -/
theorem C6_witness :
    (1 < [(1:ℚ), 3, 3, 2].length)
    ∧ (∀ j, j < [(1:ℚ), 3, 3, 2].length
        → [(1:ℚ), 3, 3, 2].getD j 0 ≤ [(1:ℚ), 3, 3, 2].getD 1 0)
    ∧ (∀ j, j < 1 → [(1:ℚ), 3, 3, 2].getD j 0 < [(1:ℚ), 3, 3, 2].getD 1 0) :=
  C6_poc_first_max (by norm_num [idxmax])

/-- C7 counterexample: profile `[7, 0, 0, 5]` (POC at index 0) with
vaFraction `99/100`: the loop halts early — the neighbour below is out
of range, the one above has zero volume — with accumulated volume 7,
strictly below the target 11.88 and **not** equal to the entire
profile's volume 12: the zero bucket walls off the remaining volume,
refuting "halted early ⟹ accumulated equals the entire profile's
volume". -/
theorem C7_counterexample :
    idxmax [(7:ℚ), 0, 0, 5] = some 0
    ∧ computeValueArea [7, 0, 0, 5] 0 (99/100) = (7, 0, 0)
    ∧ vUpOf [7, 0, 0, 5] 0 = 0
    ∧ vDownOf [7, 0, 0, 5] 0 = 0
    ∧ (7 : ℚ) < [(7:ℚ), 0, 0, 5].sum * (99/100)
    ∧ (7 : ℚ) ≠ [(7:ℚ), 0, 0, 5].sum := by
  refine ⟨by norm_num [idxmax], ?_, by norm_num [vUpOf, volAt],
    by norm_num [vDownOf], by norm_num, by norm_num⟩
  norm_num [computeValueArea, vaLoop, vUpOf, vDownOf, volAt]

/-- C7 (amended): on exit the accumulator equals the volume of the
bucket interval `[lowIndex, highIndex]`, and either that is at least
the target `vaFraction × totalVolume`, or the loop halted early with
both neighbour volumes zero — in which case the accumulated volume is
the volume of the region actually reached, which need not be the entire
profile's volume. -/
theorem C7_value_area_terminal {vols : List ℚ} (hnn : ∀ v ∈ vols, 0 ≤ v)
    {poc : ℕ} (hpoc : poc < vols.length) (frac : ℚ) :
    (computeValueArea vols poc frac).1
      = intervalVol vols (computeValueArea vols poc frac).2.2
          (computeValueArea vols poc frac).2.1
    ∧ (vols.sum * frac ≤ (computeValueArea vols poc frac).1
        ∨ (vUpOf vols (computeValueArea vols poc frac).2.1 = 0
           ∧ vDownOf vols (computeValueArea vols poc frac).2.2 = 0)) :=
  computeValueArea_spec hnn hpoc frac

/-- Witness for C7: profile `[7, 0, 0, 5]`, POC 0, fraction `99/100`. -/
theorem C7_witness :
    (computeValueArea [7, 0, 0, 5] 0 (99/100)).1
      = intervalVol [7, 0, 0, 5] (computeValueArea [7, 0, 0, 5] 0 (99/100)).2.2
          (computeValueArea [7, 0, 0, 5] 0 (99/100)).2.1
    ∧ ([(7:ℚ), 0, 0, 5].sum * (99/100) ≤ (computeValueArea [7, 0, 0, 5] 0 (99/100)).1
        ∨ (vUpOf [7, 0, 0, 5] (computeValueArea [7, 0, 0, 5] 0 (99/100)).2.1 = 0
           ∧ vDownOf [7, 0, 0, 5] (computeValueArea [7, 0, 0, 5] 0 (99/100)).2.2 = 0)) :=
  C7_value_area_terminal (by norm_num) (by norm_num) (99/100)

/-- C8: in every terminal state of the expansion (early halts included)
the returned indices straddle the POC, `down_i ≤ pocIndex ≤ up_i`: the
loop only ever moves `up_i` upward and `down_i` downward from their
common start at the POC. -/
theorem C8_va_bounds (vols : List ℚ) (poc : ℕ) (frac : ℚ) :
    (computeValueArea vols poc frac).2.2 ≤ (poc : ℤ)
    ∧ (poc : ℤ) ≤ (computeValueArea vols poc frac).2.1 := by
  have h := vaLoop_down_le_and_le_up vols (vols.sum * frac) vols.length
    (vols.getD poc 0) poc poc
  simpa only [computeValueArea] using h

/-- C9: the expansion loop terminates: with nonnegative bucket volumes,
`vols.length` iterations always suffice from the initial POC state —
any extra fuel leaves the result unchanged, for every target volume
(hence every vaFraction). Each productive iteration moves exactly one
index one step outward and both indices are confined to the profile. -/
theorem C9_vaLoop_terminates {vols : List ℚ} (hnn : ∀ v ∈ vols, 0 ≤ v)
    {poc : ℕ} (hpoc : poc < vols.length) (t : ℚ) (extra : ℕ) :
    vaLoop vols t (vols.length + extra) (vols.getD poc 0) poc poc
      = vaLoop vols t vols.length (vols.getD poc 0) poc poc := by
  obtain ⟨_, _, _, _, _, hF⟩ :=
    vaLoop_spec hnn t vols.length (vols.getD poc 0) poc poc
      (by omega) (by omega) (by exact_mod_cast hpoc) (by omega)
  exact hF extra

/-- Witness for C9: profile `[7, 0, 0, 5]`, POC 0, three units of extra
fuel. -/
theorem C9_witness :
    vaLoop [7, 0, 0, 5] (99/100) ([(7:ℚ), 0, 0, 5].length + 3)
        ([(7:ℚ), 0, 0, 5].getD 0 0) 0 0
      = vaLoop [7, 0, 0, 5] (99/100) [(7:ℚ), 0, 0, 5].length
          ([(7:ℚ), 0, 0, 5].getD 0 0) 0 0 :=
  C9_vaLoop_terminates (by norm_num) (by norm_num) (99/100) 3

/-- C10: a non-empty all-zero volume column does not raise: the POC is
index 0 (the first occurrence of the all-equal maximum), the target
volume is `0 × vaFraction = 0`, the loop body never executes, and the
Value Area collapses to the POC bucket:
`(current_vol, up_i, down_i) = (0, 0, 0)`. -/
theorem C10_all_zero_profile {vols : List ℚ} (hne : vols ≠ [])
    (hz : ∀ v ∈ vols, v = 0) (frac : ℚ) :
    idxmax vols = some 0 ∧ computeValueArea vols 0 frac = (0, 0, 0) :=
  ⟨idxmax_of_all_zero hne hz, computeValueArea_all_zero hne hz frac⟩

/-- Witness for C10: the two-bucket zero column, fraction `7/10`. -/
theorem C10_witness :
    idxmax [(0:ℚ), 0] = some 0
    ∧ computeValueArea [(0:ℚ), 0] 0 (7/10) = (0, 0, 0) :=
  C10_all_zero_profile (by simp) (by norm_num) (7/10)

end VolumeProfile
